import Mathlib

/-!
Verification of `HIPPO_distance.py`.

A shallow embedding of the core pipeline of `HIPPO_distance.py`, which
computes pairwise Resnik/SimMax semantic-similarity scores between patient
cases annotated with ontology (HPO) concept identifiers.

Modelling choices:

* The pronto ontology handle `hpo` is modelled as an association list
  `Onto` from a term identifier to its list of direct parents (the "is-a"
  edges of the loaded `.obo` catalog).  `hpo[term]` raises `KeyError`
  exactly when `term` is not a key, modelled by `parentsOf` returning
  `none`.  `Term.rparents()` returns the *strict* ancestors of a term —
  every term reachable through one or more parent edges, not the term
  itself (the script compensates for this at its line 97, commented
  "Make sure HPO terms are included in their ancestors list"); it is
  modelled by fuelled reachability over the parent edges.
* Python exceptions that escape (the `ValueError` from `max([])` on an
  empty ancestor intersection, the `ZeroDivisionError` in the diagnostic
  percentage) are modelled by `Option`: `none` means the statement raised.
* Float arithmetic is modelled over `ℚ` where only field arithmetic and
  order are involved, and over `ℝ` for the `-log2` information content.
* `np.unique` sorts its output; we use `List.dedup`, which has the same
  members.  No claim depends on the order of a de-duplicated list.
-/

namespace HIPPO

/-- The loaded ontology: each known term identifier paired with the list of
its direct parents ("is-a" edges). -/
abbrev Onto := List (String × List String)

/-- `hpo[term]`: look up a term in the ontology, `none` models the
`KeyError` raised by pronto for an identifier that is not in the catalog. -/
def parentsOf (onto : Onto) (t : String) : Option (List String) :=
  (onto.find? (fun p => p.1 == t)).map Prod.snd

/-- Fuelled reachability over parent edges: all terms reachable from `t`
through one or more "is-a" edges, i.e. pronto's `Term.rparents()` (the
strict ancestors, not including `t`).  Fuel bounds the path length; the
pipeline always supplies `onto.length`, enough for any acyclic catalog. -/
def rparentsAux (onto : Onto) : Nat → String → List String
  | 0, _ => []
  | fuel + 1, t =>
    ((parentsOf onto t).getD []).flatMap (fun p => p :: rparentsAux onto fuel p)

/-- Lines 39–43: `map_ancs(term)` returns the identifiers of
`hpo[term].rparents()`, or `[]` when the lookup raises `KeyError`.
`rparents` yields each ancestor once; we de-duplicate accordingly. -/
def map_ancs (onto : Onto) (term : String) : List String :=
  match parentsOf onto term with
  | none => []
  | some _ => (rparentsAux onto onto.length term).dedup

/-- Lines 45–51: `obsolete_terms(term_list)` returns `False` when every
term of the list has a non-empty ancestor list, `True` otherwise. -/
def obsolete_terms (onto : Onto) (term_list : List String) : Bool :=
  !(term_list.all (fun i => !(map_ancs onto i).isEmpty))

/-- The `set(map_ancs(i)) & set(map_ancs(j))` intersection of line 64,
as the sub-list of the first ancestor list whose members also belong to
the second (same members as the Python set intersection). -/
def commonAncs (onto : Onto) (i j : String) : List String :=
  (map_ancs onto i).filter (fun a => (map_ancs onto j).contains a)

/-- Whether `max([IC[a] for a in set(map_ancs(i)) & set(map_ancs(j))])`
on line 64 is defined: `max` raises `ValueError` on an empty sequence. -/
def hasMica (onto : Onto) (i j : String) : Bool :=
  !(commonAncs onto i j).isEmpty

/-- The value of the line-64 cell `max([IC[a] for a in intersection])`
when the intersection is non-empty.  The `.unbot' 0` default is never
reached by `resnik`, which guards every cell with `hasMica` first. -/
def micaVal (IC : String → ℚ) (onto : Onto) (i j : String) : ℚ :=
  (((commonAncs onto i j).map IC).maximum).unbot' 0

/-- Lines 53–73: `resnik(HPO_list_1, HPO_list_2)`.  The inner matrix has
one row per term of the first list and one column per term of the second;
`resnik.max(axis=0).sum()` sums, for each column `j`, the maximum cell of
that column over the rows `i`, and `.max(axis=1).sum()` does the converse;
`simmax` is half their sum.  `none` models the `ValueError` raised by
`max()` on an empty ancestor intersection, which aborts the call; a row or
column maximum taken over an empty axis contributes `0`, as the pandas
skip-NA sum does on an empty or all-NaN axis. -/
def resnik (IC : String → ℚ) (onto : Onto) (HPO_list_1 HPO_list_2 : List String) :
    Option ℚ :=
  if HPO_list_1.all (fun i => HPO_list_2.all (fun j => hasMica onto i j)) then
    some ((1 / 2) *
      ((HPO_list_2.map (fun j =>
          ((HPO_list_1.map (fun i => micaVal IC onto i j)).maximum).unbot' 0)).sum +
       (HPO_list_1.map (fun i =>
          ((HPO_list_2.map (fun j => micaVal IC onto i j)).maximum).unbot' 0)).sum))
  else
    none

/-- Line 91: `df = df.loc[df.ancs.astype(bool)]` — keep only the exploded
`(ID, HPO)` rows whose term has a non-empty ancestor list. -/
def keepMapped (onto : Onto) (rows : List (String × String)) :
    List (String × String) :=
  rows.filter (fun r => !(map_ancs onto r.2).isEmpty)

/-- The rows `groupby('ID')` collects for one case identifier, in their
within-group order: the `HPO` fields of the rows carrying that `ID`. -/
def groupFor (rows : List (String × String)) (i : String) : List String :=
  (rows.filter (fun r => r.1 == i)).map Prod.snd

/-- Lines 95 and 100: a case's `HPO` column — the list of its (kept)
exploded terms, de-duplicated by `np.unique` (line 100). -/
def caseHPO (hpoRows : List String) : List String :=
  hpoRows.dedup

/-- Lines 94, 97 and 99: a case's `ancs` column — `groupby('ID').ancs.sum()`
concatenates the per-row `map_ancs` lists, line 97 prepends the case's
`HPO` terms (`df.HPO + df.ancs`), and line 99 de-duplicates
(`np.unique`). -/
def caseAncs (onto : Onto) (hpoRows : List String) : List String :=
  (hpoRows ++ (hpoRows.map (map_ancs onto)).flatten).dedup

/-- Line 88: the unmapped-term diagnostic percentage,
`round(unmapped/mapped*100, 2)`.  `none` models the `ZeroDivisionError`
raised when no row's term mapped (the denominator
`df.loc[df.ancs.astype(bool)].shape[0]` is zero).  Python's float
`round(·, 2)` is modelled by exact half-up rounding of the rational to
two decimals. -/
def percent (onto : Onto) (rows : List (String × String)) : Option ℚ :=
  if (keepMapped onto rows).length = 0 then none
  else some
    ((round ((((rows.filter (fun r => (map_ancs onto r.2).isEmpty)).length : ℚ) /
        ((keepMapped onto rows).length : ℚ) * 100) * 100) : ℤ) / 100)

/-- Line 110: `df.ancs.apply(pd.Series).stack()` — the corpus: every
case's `ancs` list concatenated into one flat list, duplicates across
cases kept. -/
def all_ancs (onto : Onto) (cases : List (List String)) : List String :=
  (cases.map (caseAncs onto)).flatten

/-- Line 112: the information-content map
`-log2(all_ancs.value_counts(normalize=True))` — for a concept of the
corpus, minus the base-2 logarithm of its occurrence count over the
corpus size.  (`value_counts` has an entry only for concepts that occur;
the pipeline never queries others.) -/
noncomputable def IC_map (corpus : List String) (c : String) : ℝ :=
  -(Real.logb 2 ((corpus.count c : ℝ) / (corpus.length : ℝ)))

/-- Sequencing of a Python comprehension whose body may raise: the whole
comprehension raises (`none`) as soon as one element does. -/
def seqOpt {α : Type} : List (Option α) → Option (List α)
  | [] => some []
  | none :: _ => none
  | some x :: rest => (seqOpt rest).map (fun l => x :: l)

/-- Line 120: `pd.DataFrame([[resnik(j, i) for i in df.HPO] for j in df.HPO])`
— the all-pairs matrix over the cases' term lists; an exception escaping
any `resnik` call aborts the whole build. -/
def distance (IC : String → ℚ) (onto : Onto) (hpoLists : List (List String)) :
    Option (List (List ℚ)) :=
  seqOpt (hpoLists.map (fun j => seqOpt (hpoLists.map (fun i => resnik IC onto j i))))

/-- Lines 123–124: `for i in distance.columns: distance.loc[i,i] = 0` —
walking the rows of the square frame, row `k` gets its `k`-th entry set
to `0` (labels are the positional `RangeIndex`). -/
def zeroDiagFrom : Nat → List (List ℚ) → List (List ℚ)
  | _, [] => []
  | k, row :: rest => row.set k 0 :: zeroDiagFrom (k + 1) rest

/-- The diagonal-zeroing loop applied to the whole matrix. -/
def zeroDiag (m : List (List ℚ)) : List (List ℚ) :=
  zeroDiagFrom 0 m

/-- Line 127: `distance.dropna()` — drop rows containing a NaN.  Matrix
entries are genuine rationals here (an empty ancestor intersection raises
inside `resnik` instead of producing a NaN), so no row is ever dropped. -/
def dropna (m : List (List ℚ)) : List (List ℚ) :=
  m

/-- Line 127: `.set_index(df.ID.values)` — attach the case identifiers as
the row index of the matrix. -/
def setIndex (ids : List String) (m : List (List ℚ)) : List (String × List ℚ) :=
  ids.zip m

/-- Line 130: `to_csv(..., index=False)` — the rows written to the output
file: when `index` is false the row labels are omitted and only the
values are written (the optional first field of each written row is the
row label, present only when `index` is true). -/
def to_csv (index : Bool) (t : List (String × List ℚ)) :
    List (Option String × List ℚ) :=
  t.map (fun r => (if index then some r.1 else none, r.2))

/-- Lines 126–130: the table actually saved — diagonal-zeroed matrix,
NaN rows dropped, case IDs attached as index, written with
`index=False`. -/
def savedOutput (ids : List String) (m : List (List ℚ)) :
    List (Option String × List ℚ) :=
  to_csv false (setIndex ids (dropna (zeroDiag m)))

/-- A small concrete catalog: two leaf terms `c1`, `c2` below a root `r`. -/
def exOnto : Onto := [("c1", ["r"]), ("c2", ["r"]), ("r", [])]

/-- A catalog whose two leaf terms `a` and `b` sit below distinct roots,
so their ancestor sets are disjoint. -/
def disjOnto : Onto := [("a", ["ra"]), ("ra", []), ("b", ["rb"]), ("rb", [])]

/-- A one-edge catalog: term `t` with single parent `p`. -/
def reflOnto : Onto := [("t", ["p"]), ("p", [])]

section Theorems

/-- Membership in the `set(map_ancs(i)) & set(map_ancs(j))` intersection. -/
theorem mem_commonAncs {onto : Onto} {i j a : String} :
    a ∈ commonAncs onto i j ↔ a ∈ map_ancs onto i ∧ a ∈ map_ancs onto j := by
  simp [commonAncs, List.mem_filter, List.elem_iff]

/-- Two lists with the same members have the same maximum. -/
theorem maximum_eq_of_mem_iff {l₁ l₂ : List ℚ} (h : ∀ x, x ∈ l₁ ↔ x ∈ l₂) :
    l₁.maximum = l₂.maximum := by
  cases h₁ : l₁.maximum with
  | bot =>
    have : l₁ = [] := List.maximum_eq_bot.mp h₁
    subst this
    have : l₂ = [] := by
      apply List.eq_nil_iff_forall_not_mem.mpr
      intro x hx
      exact absurd ((h x).mpr hx) (List.not_mem_nil x)
    exact (List.maximum_eq_bot.mpr this).symm
  | coe m =>
    obtain ⟨hm, hle⟩ := List.maximum_eq_coe_iff.mp h₁
    exact (List.maximum_eq_coe_iff.mpr
      ⟨(h m).mp hm, fun a ha => hle a ((h a).mpr ha)⟩).symm

/-- The MICA-IC cell value is symmetric in its two concepts. -/
theorem micaVal_comm (IC : String → ℚ) (onto : Onto) (i j : String) :
    micaVal IC onto i j = micaVal IC onto j i := by
  unfold micaVal
  congr 1
  apply maximum_eq_of_mem_iff
  intro x
  constructor <;>
  · intro hx
    obtain ⟨a, ha, rfl⟩ := List.mem_map.mp hx
    exact List.mem_map.mpr ⟨a, mem_commonAncs.mpr (mem_commonAncs.mp ha).symm, rfl⟩

/-- Whether a concept pair has any common ancestor is symmetric. -/
theorem hasMica_comm (onto : Onto) (i j : String) :
    hasMica onto i j = hasMica onto j i := by
  unfold hasMica
  congr 1
  rw [Bool.eq_iff_iff, List.isEmpty_iff, List.isEmpty_iff]
  constructor <;>
  · intro hnil
    apply List.eq_nil_iff_forall_not_mem.mpr
    intro x hx
    have := mem_commonAncs.mpr (mem_commonAncs.mp hx).symm
    rw [hnil] at this
    exact List.not_mem_nil x this

/-- C1. For every IC map, ontology and pair of concept lists, the pairwise
similarity is symmetric: `resnik(A, B) = resnik(B, A)` — the 0.5-weighted
sum of column maxima and row maxima of the MICA-IC matrix is invariant
under swapping the two input lists (and the two calls raise together). -/
theorem resnik_symm (IC : String → ℚ) (onto : Onto) (A B : List String) :
    resnik IC onto A B = resnik IC onto B A := by
  have hguard : (A.all fun i => B.all fun j => hasMica onto i j)
      = (B.all fun i => A.all fun j => hasMica onto i j) := by
    rw [Bool.eq_iff_iff]
    simp only [List.all_eq_true]
    constructor
    · intro h i hi j hj
      rw [hasMica_comm]
      exact h j hj i hi
    · intro h i hi j hj
      rw [hasMica_comm]
      exact h j hj i hi
  have hsum : ∀ (X Y : List String),
      (X.map (fun x => ((Y.map (fun y => micaVal IC onto y x)).maximum).unbot' 0)).sum
      = (X.map (fun x => ((Y.map (fun y => micaVal IC onto x y)).maximum).unbot' 0)).sum := by
    intro X Y
    congr 1
    apply List.map_congr_left
    intro x _
    congr 1
    congr 1
    apply List.map_congr_left
    intro y _
    exact micaVal_comm IC onto y x
  unfold resnik
  rw [hguard]
  by_cases hg : (B.all fun i => A.all fun j => hasMica onto i j) = true
  · rw [if_pos hg, if_pos hg]
    congr 1
    rw [hsum B A, hsum A B, add_comm]
  · rw [if_neg hg, if_neg hg]

/-- `seqOpt` succeeds exactly on lists of defined values, and then returns
them. -/
theorem seqOpt_eq_some {α : Type} {l : List (Option α)} {l' : List α} :
    seqOpt l = some l' ↔ l = l'.map some := by
  induction l generalizing l' with
  | nil => cases l' <;> simp [seqOpt]
  | cons a rest ih =>
    cases a with
    | none => cases l' <;> simp [seqOpt]
    | some x =>
      cases l' with
      | nil => simp [seqOpt, Option.map_eq_some']
      | cons y ys =>
        simp only [seqOpt, Option.map_eq_some', List.map_cons, List.cons.injEq,
          Option.some.injEq]
        constructor
        · rintro ⟨r, hr, rfl, rfl⟩
          exact ⟨rfl, ih.mp hr⟩
        · rintro ⟨rfl, h⟩
          exact ⟨ys, ih.mpr h, rfl, rfl⟩

/-- Positional reading of the diagonal-zeroing loop: row `i` of
`zeroDiagFrom k m` is row `i` of `m` with entry `k + i` set to `0`. -/
theorem zeroDiagFrom_getElem? (m : List (List ℚ)) (k i : Nat) :
    (zeroDiagFrom k m)[i]? = (m[i]?).map (fun row => row.set (k + i) 0) := by
  induction m generalizing k i with
  | nil => simp [zeroDiagFrom]
  | cons row rest ih =>
    cases i with
    | zero => simp [zeroDiagFrom]
    | succ n =>
      simp only [zeroDiagFrom, List.getElem?_cons_succ, ih (k + 1) n]
      rw [Nat.add_assoc, Nat.add_comm 1 n]

/-- C2. Whenever the all-pairs matrix is built without an exception, every
diagonal entry of the diagonal-zeroing pass is `0`, regardless of the
self-similarity value the pairwise scorer computed there. -/
theorem distance_diag_zero (IC : String → ℚ) (onto : Onto)
    (ls : List (List String)) (m : List (List ℚ))
    (h : distance IC onto ls = some m) (i : Nat) (hi : i < ls.length) :
    (((zeroDiag m)[i]?.getD [])[i]?.getD 1) = 0 := by
  unfold distance at h
  rw [seqOpt_eq_some] at h
  have hlen : m.length = ls.length := by
    have := congrArg List.length h
    simpa using this.symm
  have him : i < m.length := hlen ▸ hi
  have hrow : seqOpt (ls.map (fun i' => resnik IC onto ls[i] i')) = some m[i] := by
    have h1 := congrArg (fun l => l[i]?) h
    simp only [List.getElem?_map] at h1
    rw [List.getElem?_eq_getElem hi, List.getElem?_eq_getElem him] at h1
    simpa using h1
  rw [seqOpt_eq_some] at hrow
  have hrowlen : m[i].length = ls.length := by
    have := congrArg List.length hrow
    simpa using this.symm
  have hii : i < m[i].length := hrowlen ▸ hi
  rw [zeroDiag, zeroDiagFrom_getElem?, List.getElem?_eq_getElem him]
  simp only [Option.map_some', Option.getD_some, Nat.zero_add]
  rw [List.getElem?_set_self hii]
  simp

/-- Witness for C2 at a concrete run: two cases below a shared root. -/
theorem distance_diag_zero_witness :
    distance (fun _ => (1 : ℚ)) exOnto [["c1"], ["c2"]] = some [[1, 1], [1, 1]] ∧
    (((zeroDiag [[(1 : ℚ), 1], [1, 1]])[0]?.getD [])[0]?.getD 1) = 0 := by
  have hd : distance (fun _ => (1 : ℚ)) exOnto [["c1"], ["c2"]] = some [[1, 1], [1, 1]] := by
    simp [distance, seqOpt, resnik, hasMica, commonAncs, micaVal, map_ancs,
      parentsOf, rparentsAux, exOnto, List.dedup]
    norm_num
  exact ⟨hd, distance_diag_zero _ _ _ _ hd 0 (by norm_num)⟩

/-- C3, counterexample. Two cases each carrying one mapped concept but
with disjoint ancestor sets: the pairwise computation raises (`none`
models the `ValueError` from `max()` on the empty intersection), and the
whole matrix build aborts — no sentinel value reaches the matrix
builder. -/
theorem resnik_disjoint_raises :
    resnik (fun _ => (1 : ℚ)) disjOnto ["a"] ["b"] = none ∧
    map_ancs disjOnto "a" ≠ [] ∧ map_ancs disjOnto "b" ≠ [] ∧
    distance (fun _ => (1 : ℚ)) disjOnto [["a"], ["b"]] = none := by decide

/-- C3, amended. The pairwise computation raises (`none`) exactly when
some pair of concepts from the two lists has an empty common-ancestor
set; otherwise it returns a defined numeric value. -/
theorem resnik_none_iff (IC : String → ℚ) (onto : Onto) (A B : List String) :
    resnik IC onto A B = none ↔ ∃ i ∈ A, ∃ j ∈ B, commonAncs onto i j = [] := by
  have hchar : (A.all fun i => B.all fun j => hasMica onto i j) = true ↔
      ∀ i ∈ A, ∀ j ∈ B, commonAncs onto i j ≠ [] := by
    simp [List.all_eq_true, hasMica, List.isEmpty_iff]
  unfold resnik
  by_cases hg : (A.all fun i => B.all fun j => hasMica onto i j) = true
  · rw [if_pos hg]
    have hall := hchar.mp hg
    constructor
    · intro h
      simp at h
    · rintro ⟨i, hi, j, hj, he⟩
      exact absurd he (hall i hi j hj)
  · rw [if_neg hg]
    constructor
    · intro _
      by_contra hne
      push_neg at hne
      exact hg (hchar.mpr hne)
    · intro _
      rfl

/-- C4, counterexample. A term known to the ontology (with a non-empty
ancestor list, hence "mapped") is not a member of its own `map_ancs`
result: pronto's `rparents()` returns strict ancestors only. -/
theorem map_ancs_not_reflexive :
    map_ancs reflOnto "t" ≠ [] ∧ "t" ∉ map_ancs reflOnto "t" := by decide

/-- C4, amended. Reflexivity of the ancestor closure is restored at the
aggregation step (line 97, "Make sure HPO terms are included in their
ancestors list"): every term of a case's row group is a member of the
case's `ancs` list, even though `map_ancs` itself excludes the term. -/
theorem mem_caseAncs_self (onto : Onto) (t : String) (rows : List String)
    (h : t ∈ rows) : t ∈ caseAncs onto rows := by
  unfold caseAncs
  rw [List.mem_dedup]
  exact List.mem_append_left _ h

/-- Witness for the amended C4, on the ontology of the counterexample. -/
theorem mem_caseAncs_self_witness :
    "t" ∈ ["t"] ∧ "t" ∈ caseAncs reflOnto ["t"] :=
  ⟨by decide, mem_caseAncs_self reflOnto "t" ["t"] (by decide)⟩

/-- C5. For every aggregated case record, the de-duplicated concept list
is a subset of the de-duplicated ancestor list. -/
theorem caseHPO_subset_caseAncs (onto : Onto) (rows : List String) (c : String)
    (h : c ∈ caseHPO rows) : c ∈ caseAncs onto rows := by
  unfold caseHPO at h
  rw [List.mem_dedup] at h
  unfold caseAncs
  rw [List.mem_dedup]
  exact List.mem_append_left _ h

/-- Witness for C5 at a concrete two-concept case. -/
theorem caseHPO_subset_caseAncs_witness :
    "c2" ∈ caseHPO ["c1", "c2"] ∧ "c2" ∈ caseAncs exOnto ["c1", "c2"] :=
  ⟨by decide, caseHPO_subset_caseAncs exOnto ["c1", "c2"] "c2" (by decide)⟩

/-- C6. The information-content map is antitone in corpus frequency: a
concept occurring at least as often in the flattened per-case ancestor
corpus has information content at most that of a rarer one. -/
theorem IC_antitone (onto : Onto) (cases : List (List String)) (c₁ c₂ : String)
    (h₁ : c₁ ∈ all_ancs onto cases) (h₂ : c₂ ∈ all_ancs onto cases)
    (hcount : (all_ancs onto cases).count c₂ ≤ (all_ancs onto cases).count c₁) :
    IC_map (all_ancs onto cases) c₁ ≤ IC_map (all_ancs onto cases) c₂ := by
  have hlen : 0 < (all_ancs onto cases).length :=
    List.length_pos.mpr (List.ne_nil_of_mem h₁)
  have hc2 : 0 < (all_ancs onto cases).count c₂ := List.count_pos_iff.mpr h₂
  have hlenR : (0 : ℝ) < ((all_ancs onto cases).length : ℝ) := by exact_mod_cast hlen
  have h2R : (0 : ℝ) < ((all_ancs onto cases).count c₂ : ℝ) := by exact_mod_cast hc2
  unfold IC_map
  apply neg_le_neg
  apply Real.logb_le_logb_of_le (by norm_num) (div_pos h2R hlenR)
  exact (div_le_div_iff_of_pos_right hlenR).mpr (by exact_mod_cast hcount)

/-- Witness for C6: in the two-case corpus the shared root `r` occurs
twice, the leaf `c1` once. -/
theorem IC_antitone_witness :
    "r" ∈ all_ancs exOnto [["c1"], ["c2"]] ∧
    "c1" ∈ all_ancs exOnto [["c1"], ["c2"]] ∧
    (all_ancs exOnto [["c1"], ["c2"]]).count "c1" ≤
      (all_ancs exOnto [["c1"], ["c2"]]).count "r" ∧
    IC_map (all_ancs exOnto [["c1"], ["c2"]]) "r" ≤
      IC_map (all_ancs exOnto [["c1"], ["c2"]]) "c1" :=
  ⟨by decide, by decide, by decide,
    IC_antitone exOnto [["c1"], ["c2"]] "r" "c1" (by decide) (by decide) (by decide)⟩

/-- C7. An identifier unknown to the ontology yields an empty ancestor
list (the `KeyError` is caught, nothing is raised, `map_ancs` is total),
and no case's de-duplicated concept list retains it after the line-91
filter. -/
theorem unmapped_soft (onto : Onto) (t : String) (h : parentsOf onto t = none) :
    map_ancs onto t = [] ∧
    ∀ (rows : List (String × String)) (idv : String),
      t ∉ caseHPO (groupFor (keepMapped onto rows) idv) := by
  have hempty : map_ancs onto t = [] := by
    unfold map_ancs
    rw [h]
  refine ⟨hempty, ?_⟩
  intro rows idv hmem
  unfold caseHPO at hmem
  rw [List.mem_dedup] at hmem
  unfold groupFor at hmem
  obtain ⟨r, hr, hrt⟩ := List.mem_map.mp hmem
  have hr' := List.mem_filter.mp hr
  have hkeep := (List.mem_filter.mp (by simpa [keepMapped] using hr'.1 : r ∈ rows.filter (fun p => !(map_ancs onto p.2).isEmpty))).2
  rw [hrt, hempty] at hkeep
  simp at hkeep

/-- Witness for C7: unknown identifier `zz` in a row group that also
carries the mapped `c1`. -/
theorem unmapped_soft_witness :
    parentsOf exOnto "zz" = none ∧ map_ancs exOnto "zz" = [] ∧
    "zz" ∉ caseHPO (groupFor (keepMapped exOnto [("P1", "zz"), ("P1", "c1")]) "P1") :=
  ⟨by decide, (unmapped_soft exOnto "zz" (by decide)).1,
    (unmapped_soft exOnto "zz" (by decide)).2 [("P1", "zz"), ("P1", "c1")] "P1"⟩

/-- C8. The saved table carries no case identifiers: `to_csv` is called
with `index=False`, so the row labels attached at line 127 are dropped,
and two runs differing only in their case IDs write identical files — a
consumer cannot recover which row belongs to which case.  This
contradicts the script's own help text ("with input IDs as rows and
cols") and the intent of the `set_index` call. -/
theorem savedOutput_has_no_ids :
    savedOutput ["P1", "P2"] [[0, 1], [1, 0]] = savedOutput ["X", "Y"] [[0, 1], [1, 0]] ∧
    ∀ r ∈ savedOutput ["P1", "P2"] [[0, 1], [1, 0]], r.1 = none := by decide

/-- C9, counterexample. A term list with one mapped and one unmapped
concept is flagged by `obsolete_terms` even though not every concept has
an empty ancestor set: the flag means "some term is obsolete", not
"every term is obsolete". -/
theorem obsolete_terms_flags_partially_mapped :
    obsolete_terms exOnto ["c1", "zz"] = true ∧ map_ancs exOnto "c1" ≠ [] := by decide

/-- C9, amended. `obsolete_terms` flags a term list exactly when at least
one of its terms has an empty ancestor list; and since the line-103 check
runs on the post-filter concept lists, which retain only mapped terms, no
case is ever flagged there. -/
theorem obsolete_terms_spec (onto : Onto) (l : List String) :
    (obsolete_terms onto l = true ↔ ∃ t ∈ l, map_ancs onto t = []) ∧
    ∀ (rows : List (String × String)) (idv : String),
      obsolete_terms onto (caseHPO (groupFor (keepMapped onto rows) idv)) = false := by
  constructor
  · simp [obsolete_terms, List.all_eq_true, List.isEmpty_iff]
  · intro rows idv
    have hall : (caseHPO (groupFor (keepMapped onto rows) idv)).all
        (fun i => !(map_ancs onto i).isEmpty) = true := by
      rw [List.all_eq_true]
      intro t ht
      unfold caseHPO at ht
      rw [List.mem_dedup] at ht
      unfold groupFor at ht
      obtain ⟨r, hr, hrt⟩ := List.mem_map.mp ht
      have hr' := List.mem_filter.mp hr
      have hkeep := (List.mem_filter.mp
        (by simpa [keepMapped] using hr'.1 :
          r ∈ rows.filter (fun p => !(map_ancs onto p.2).isEmpty))).2
      rw [hrt] at hkeep
      exact hkeep
    unfold obsolete_terms
    rw [hall]
    rfl

/-- C10. The unmapped-percentage diagnostic raises `ZeroDivisionError`
(modelled `none`) exactly when no concept instance of the input mapped to
a non-empty ancestor set; with at least one mapped instance it is a
defined value. -/
theorem percent_none_iff (onto : Onto) (rows : List (String × String)) :
    percent onto rows = none ↔ ∀ r ∈ rows, map_ancs onto r.2 = [] := by
  unfold percent
  by_cases h : (keepMapped onto rows).length = 0
  · rw [if_pos h]
    constructor
    · intro _ r hr
      have hfil : rows.filter (fun p => !(map_ancs onto p.2).isEmpty) = [] := by
        have := List.length_eq_zero.mp h
        simpa [keepMapped] using this
      have hnr := List.filter_eq_nil_iff.mp hfil r hr
      simpa [List.isEmpty_iff] using hnr
    · intro _
      rfl
  · rw [if_neg h]
    constructor
    · intro hsome
      simp at hsome
    · intro hall
      exfalso
      apply h
      unfold keepMapped
      rw [List.length_eq_zero]
      apply List.filter_eq_nil_iff.mpr
      intro r hr
      rw [hall r hr]
      simp

end Theorems

end HIPPO
